import Mathlib

/-!
Verification of the size-arithmetic helpers of `src/alloc.h` (bfs) and of the
I/O-queue entry accounting described by its companion header.

`size_t` is modelled as `Nat` with explicit reduction modulo `M = 2 ^ W` at the
operations where the C code can wrap (`W = 64`: the spec's scenarios are stated
for a 64-bit system).  Each definition is a direct transcription of the
corresponding C function.
-/

namespace Alloc

/-- Bit width of `size_t` on the modelled 64-bit system. -/
def W : Nat := 64

/-- The constant `2 ^ W`, the modulus of `size_t` arithmetic. -/
def M : Nat := 2 ^ W

/-- Bitwise complement of a `size_t` value: for `x < M`, `~x = M - 1 - x`
(all `W` bits flipped). -/
def cnot (x : Nat) : Nat := M - 1 - x % M

/-- Transcribes `static inline size_t align_floor(size_t align, size_t size)`:
`return size & ~(align - 1);` -/
def align_floor (align size : Nat) : Nat := size &&& cnot (align - 1)

/-- Transcribes `static inline size_t align_ceil(size_t align, size_t size)`:
`return align_floor(align, size + align - 1);` — the argument addition is
`size_t` arithmetic, hence the reduction mod `M`. -/
def align_ceil (align size : Nat) : Nat := align_floor align ((size + align - 1) % M)

/-- Transcribes `static inline size_t array_size(size_t align, size_t size,
size_t count)`: `size_t ret = size * count;
return ret / size == count ? ret : ~(align - 1);` -/
def array_size (align size count : Nat) : Nat :=
  let ret := size * count % M
  if ret / size = count then ret else cnot (align - 1)

/-- Transcribes `static inline size_t flex_size(size_t align, size_t min,
size_t offset, size_t size, size_t count)` line by line; `overflow` is the C
`size_t` flag (0 or 1), `-overflow` is `(M - overflow) % M`, and
`ret = ret < min ? min : ret` is the final conditional. -/
def flex_size (align min offset size count : Nat) : Nat :=
  let ret := size * count % M
  let overflow := if ret / size ≠ count then 1 else 0
  let extra := (offset + align - 1) % M
  let ret := (ret + extra) % M
  let overflow := overflow ||| (if ret < extra then 1 else 0)
  let ret := ret ||| ((M - overflow) % M)
  let ret := align_floor align ret
  if align_ceil align offset < min then
    if ret < min then min else ret
  else
    ret

/-- C division with the divide-by-zero precondition tracked: `a / b` is
undefined behaviour when `b = 0`. -/
def cdiv (a b : Nat) : Option Nat := if b = 0 then none else some (a / b)

/-- Variant of `array_size` with its one undefined-behaviour point (`ret / size` with
`size == 0`) tracked in `Option`: the division is evaluated unconditionally,
exactly as in the C body. -/
def array_size_chk (align size count : Nat) : Option Nat := do
  let ret := size * count % M
  let q ← cdiv ret size
  pure (if q = count then ret else cnot (align - 1))

/-- Variant of `flex_size` with its one undefined-behaviour point (`ret / size` with
`size == 0`) tracked in `Option`: the division is evaluated unconditionally,
exactly as in the C body. -/
def flex_size_chk (align min offset size count : Nat) : Option Nat := do
  let ret := size * count % M
  let q ← cdiv ret size
  let overflow := if q ≠ count then 1 else 0
  let extra := (offset + align - 1) % M
  let ret := (ret + extra) % M
  let overflow := overflow ||| (if ret < extra then 1 else 0)
  let ret := ret ||| ((M - overflow) % M)
  let ret := align_floor align ret
  pure <| if align_ceil align offset < min then
    if ret < min then min else ret
  else
    ret

end Alloc

namespace Ioq

/-- Modelled from the spec: the I/O queue implementation behind the `ioq.h`
declarations is not among the sources, so the spec's entry state machine
(FREE → SUBMITTED → INFLIGHT → COMPLETED → FREE, with `ioq_cancel` moving
SUBMITTED entries straight to COMPLETED) is modelled by counting the entries
in each lifecycle state.  Entries popped by the driver but not yet returned
with `ioq_free` still count as completed. -/
structure State where
  free : Nat
  submitted : Nat
  inflight : Nat
  completed : Nat
deriving DecidableEq

/-- Modelled from the spec: a successful `ioq_create(depth, nthreads)` starts
with all `depth` entries on the free stack; `nthreads` only sizes the worker
pool and plays no role in entry accounting. -/
def ioq_create (depth nthreads : Nat) : State :=
  { free := depth, submitted := 0, inflight := 0, completed := 0 }

/-- Modelled from the spec: `ioq_capacity` reports the current free-slot
count. -/
def ioq_capacity (s : State) : Nat := s.free

/-- Modelled from the spec: the transitions an entry population can make.
`submit` is `ioq_close`/`ioq_opendir`/`ioq_closedir` taking a free entry;
`dispatch` is a worker starting an operation; `publish` pushes a finished
operation onto the completion ring; `reclaim` is `ioq_free`; `cancel` drains
every not-yet-dispatched submission into the completion ring.  `ioq_pop`
hands a completed entry to the driver without changing any count. -/
inductive Step : State → State → Prop
  | submit (f s i c : Nat) :
      Step { free := f + 1, submitted := s, inflight := i, completed := c }
        { free := f, submitted := s + 1, inflight := i, completed := c }
  | dispatch (f s i c : Nat) :
      Step { free := f, submitted := s + 1, inflight := i, completed := c }
        { free := f, submitted := s, inflight := i + 1, completed := c }
  | publish (f s i c : Nat) :
      Step { free := f, submitted := s, inflight := i + 1, completed := c }
        { free := f, submitted := s, inflight := i, completed := c + 1 }
  | reclaim (f s i c : Nat) :
      Step { free := f, submitted := s, inflight := i, completed := c + 1 }
        { free := f + 1, submitted := s, inflight := i, completed := c }
  | cancel (f s i c : Nat) :
      Step { free := f, submitted := s, inflight := i, completed := c }
        { free := f, submitted := 0, inflight := i, completed := c + s }

/-- Reachability of a queue state from another by any transition sequence. -/
def Reachable : State → State → Prop := Relation.ReflTransGen Step

end Ioq

namespace Alloc

/-! Basic facts about the masks. -/

theorem two_pow_le_M {k : Nat} (hk : k ≤ W) : 2 ^ k ≤ M :=
  Nat.pow_le_pow_right (by norm_num) hk

/-- The mask `~(A - 1)` for `A = 2 ^ k` is the high-bit mask `M - 2 ^ k`. -/
theorem cnot_two_pow_sub_one {k : Nat} (hk : k ≤ W) :
    cnot (2 ^ k - 1) = M - 2 ^ k := by
  have h := two_pow_le_M hk
  have h2 : 1 ≤ 2 ^ k := Nat.one_le_two_pow
  have h1 : 2 ^ k - 1 < M := by omega
  unfold cnot
  rw [Nat.mod_eq_of_lt h1]
  omega

/-- High-bit mask extraction: for `x < M`, `x &&& (M - 2 ^ k)` clears the low
`k` bits of `x`, i.e. rounds `x` down to a multiple of `2 ^ k`. -/
theorem land_high_mask {k x : Nat} (hk : k ≤ W) (hx : x < M) :
    x &&& (M - 2 ^ k) = x - x % 2 ^ k := by
  have hmask : M - 2 ^ k = (2 ^ (W - k) - 1) <<< k := by
    rw [Nat.shiftLeft_eq, Nat.sub_mul, one_mul, ← pow_add]
    rw [Nat.sub_add_cancel hk]
    rfl
  have hdiv : x - x % 2 ^ k = (x >>> k) <<< k := by
    rw [Nat.shiftRight_eq_div_pow, Nat.shiftLeft_eq]
    have h := Nat.div_add_mod x (2 ^ k)
    rw [Nat.mul_comm] at h
    omega
  rw [hmask, hdiv]
  apply Nat.eq_of_testBit_eq
  intro i
  rw [Nat.testBit_land, Nat.testBit_shiftLeft, Nat.testBit_shiftLeft,
    Nat.testBit_shiftRight, Nat.testBit_two_pow_sub_one]
  by_cases hik : k ≤ i
  · have hki : k + (i - k) = i := by omega
    by_cases hiW : i < W
    · have hlt : i - k < W - k := by omega
      simp [ge_iff_le, hik, hki, hlt]
    · have hbit : x.testBit i = false := by
        apply Nat.testBit_lt_two_pow
        exact lt_of_lt_of_le hx (Nat.pow_le_pow_right (by norm_num) (by omega))
      simp [ge_iff_le, hik, hki, hbit, show ¬ (i - k < W - k) by omega]
  · simp [ge_iff_le, hik]

/-- At a power-of-two alignment, `align_floor` is arithmetic floor rounding. -/
theorem align_floor_eq {k x : Nat} (hk : k ≤ W) (hx : x < M) :
    align_floor (2 ^ k) x = x - x % 2 ^ k := by
  unfold align_floor
  rw [cnot_two_pow_sub_one hk, land_high_mask hk hx]

theorem align_floor_le {k x : Nat} (hk : k ≤ W) (hx : x < M) :
    align_floor (2 ^ k) x ≤ x := by
  rw [align_floor_eq hk hx]
  omega

theorem align_floor_dvd {k x : Nat} (hk : k ≤ W) (hx : x < M) :
    align_floor (2 ^ k) x % 2 ^ k = 0 := by
  rw [align_floor_eq hk hx]
  have h := Nat.div_add_mod x (2 ^ k)
  have h2 : x - x % 2 ^ k = 2 ^ k * (x / 2 ^ k) := by omega
  rw [h2]
  exact Nat.mul_mod_right _ _

theorem align_floor_greatest {k x m : Nat} (hk : k ≤ W) (hx : x < M)
    (hm : m % 2 ^ k = 0) (hle : m ≤ x) : m ≤ align_floor (2 ^ k) x := by
  rw [align_floor_eq hk hx]
  rcases Nat.dvd_of_mod_eq_zero hm with ⟨c, hc⟩
  have h := Nat.div_add_mod x (2 ^ k)
  have hcx : c ≤ x / 2 ^ k := by
    by_contra hlt
    push_neg at hlt
    have : x / 2 ^ k + 1 ≤ c := hlt
    have h1 : 2 ^ k * (x / 2 ^ k + 1) ≤ 2 ^ k * c := Nat.mul_le_mul_left _ this
    have h2 : x % 2 ^ k < 2 ^ k := Nat.mod_lt _ (Nat.pos_pow_of_pos _ (by norm_num))
    have h3 : 2 ^ k * (x / 2 ^ k + 1) = 2 ^ k * (x / 2 ^ k) + 2 ^ k := by ring
    omega
  have : 2 ^ k * c ≤ 2 ^ k * (x / 2 ^ k) := Nat.mul_le_mul_left _ hcx
  omega

theorem align_floor_mono {k x y : Nat} (hk : k ≤ W) (hxy : x ≤ y) (hy : y < M) :
    align_floor (2 ^ k) x ≤ align_floor (2 ^ k) y := by
  apply align_floor_greatest hk hy (align_floor_dvd hk (lt_of_le_of_lt hxy hy))
  exact le_trans (align_floor_le hk (lt_of_le_of_lt hxy hy)) hxy

theorem align_floor_lt_M {k x : Nat} (hk : k ≤ W) (hx : x < M) :
    align_floor (2 ^ k) x < M := by
  exact lt_of_le_of_lt (align_floor_le hk hx) hx

/-- When the internal addition `size + align - 1` does not wrap, `align_ceil`
is arithmetic ceiling rounding: the floor of `x + 2 ^ k - 1`. -/
theorem align_ceil_eq {k x : Nat} (hk : k ≤ W) (hx : x + 2 ^ k - 1 < M) :
    align_ceil (2 ^ k) x = (x + 2 ^ k - 1) - (x + 2 ^ k - 1) % 2 ^ k := by
  unfold align_ceil
  rw [Nat.mod_eq_of_lt hx, align_floor_eq hk hx]

theorem le_align_ceil {k x : Nat} (hk : k ≤ W) (hx : x + 2 ^ k - 1 < M) :
    x ≤ align_ceil (2 ^ k) x := by
  rw [align_ceil_eq hk hx]
  have h1 : 1 ≤ 2 ^ k := Nat.one_le_two_pow
  have h2 : (x + 2 ^ k - 1) % 2 ^ k < 2 ^ k :=
    Nat.mod_lt _ (Nat.pos_pow_of_pos _ (by norm_num))
  omega

theorem align_ceil_dvd {k x : Nat} (hk : k ≤ W) (hx : x + 2 ^ k - 1 < M) :
    align_ceil (2 ^ k) x % 2 ^ k = 0 := by
  unfold align_ceil
  rw [Nat.mod_eq_of_lt hx]
  exact align_floor_dvd hk hx

theorem align_ceil_least {k x m : Nat} (hk : k ≤ W) (hx : x + 2 ^ k - 1 < M)
    (hm : m % 2 ^ k = 0) (hle : x ≤ m) : align_ceil (2 ^ k) x ≤ m := by
  rw [align_ceil_eq hk hx]
  have h1 : 1 ≤ 2 ^ k := Nat.one_le_two_pow
  have h2 : (x + 2 ^ k - 1) % 2 ^ k < 2 ^ k :=
    Nat.mod_lt _ (Nat.pos_pow_of_pos _ (by norm_num))
  by_contra hlt
  push_neg at hlt
  -- `m` and the ceiling are both multiples of `2 ^ k`; a smaller multiple is
  -- at least `2 ^ k` below, hence below `x`, contradicting `x ≤ m`.
  have hceil : (x + 2 ^ k - 1 - (x + 2 ^ k - 1) % 2 ^ k) % 2 ^ k = 0 := by
    have := align_floor_dvd hk hx
    rwa [align_floor_eq hk hx] at this
  rcases Nat.dvd_of_mod_eq_zero hm with ⟨c, hc⟩
  rcases Nat.dvd_of_mod_eq_zero hceil with ⟨d, hd⟩
  have hcd : c < d := by
    by_contra hcd
    push_neg at hcd
    have := Nat.mul_le_mul_left (2 ^ k) hcd
    omega
  have h3 : 2 ^ k * (c + 1) ≤ 2 ^ k * d := Nat.mul_le_mul_left _ hcd
  have h4 : 2 ^ k * (c + 1) = 2 ^ k * c + 2 ^ k := by ring
  omega

/-! Execution lemmas for the saturating size computations. -/

theorem M_pos : 0 < M := by decide

/-- When the true product wraps, the division check detects it. -/
theorem mul_wrap_div_ne {s n : Nat} (hs : 0 < s) (hov : M ≤ s * n) :
    s * n % M / s ≠ n := by
  have h1 : s * n % M < M := Nat.mod_lt _ M_pos
  have h2 : s * n % M < n * s := by rw [Nat.mul_comm n s]; omega
  exact Nat.ne_of_lt ((Nat.div_lt_iff_lt_mul hs).mpr h2)

/-- Or-ing with the all-ones word forces the all-ones word. -/
theorem lor_all_ones {x : Nat} (hx : x < M) : x ||| (M - 1) = M - 1 := by
  have hM : M - 1 = 2 ^ W - 1 := rfl
  apply Nat.eq_of_testBit_eq
  intro i
  rw [Nat.testBit_lor, hM, Nat.testBit_two_pow_sub_one]
  by_cases hiW : i < W
  · simp [hiW]
  · have hbit : x.testBit i = false := by
      apply Nat.testBit_lt_two_pow
      exact lt_of_lt_of_le hx (Nat.pow_le_pow_right (by norm_num) (by omega))
    simp [hiW, hbit]

/-- The sentinel `M - 2 ^ k` is the largest `2 ^ k`-aligned `size_t` value. -/
theorem align_floor_all_ones {k : Nat} (hk : k ≤ W) :
    align_floor (2 ^ k) (M - 1) = M - 2 ^ k := by
  have h1 : (1:Nat) ≤ 2 ^ k := Nat.one_le_two_pow
  have h2 : 2 ^ k ≤ M := two_pow_le_M hk
  have hc : M = 2 ^ k * 2 ^ (W - k) := by
    rw [← pow_add, Nat.add_sub_cancel' hk]
    rfl
  have h3 : (1:Nat) ≤ 2 ^ (W - k) := Nat.one_le_two_pow
  have h4 : 2 ^ k * (2 ^ (W - k) - 1) + 2 ^ k = 2 ^ k * 2 ^ (W - k) := by
    have h9 : 2 ^ (W - k) - 1 + 1 = 2 ^ (W - k) := by omega
    rw [← h9, Nat.mul_add, Nat.mul_one, h9]
  have h5 : 2 ^ k * (2 ^ (W - k) - 1) + (2 ^ k - 1) = M - 1 := by omega
  have h6 : (M - 1) % 2 ^ k = 2 ^ k - 1 := by
    rw [← h5, Nat.mul_add_mod, Nat.mod_eq_of_lt (by omega)]
  rw [align_floor_eq hk (by omega), h6]
  omega

theorem M_sub_pow_mod {k : Nat} (hk : k ≤ W) : (M - 2 ^ k) % 2 ^ k = 0 := by
  have hc : M = 2 ^ k * 2 ^ (W - k) := by
    rw [← pow_add, Nat.add_sub_cancel' hk]
    rfl
  have h3 : (1:Nat) ≤ 2 ^ (W - k) := Nat.one_le_two_pow
  have h4 : 2 ^ k * (2 ^ (W - k) - 1) + 2 ^ k = 2 ^ k * 2 ^ (W - k) := by
    have h9 : 2 ^ (W - k) - 1 + 1 = 2 ^ (W - k) := by omega
    rw [← h9, Nat.mul_add, Nat.mul_one, h9]
  have h5 : M - 2 ^ k = 2 ^ k * (2 ^ (W - k) - 1) := by omega
  rw [h5, Nat.mul_mod_right]

/-- A `2 ^ k`-aligned `size_t` value is at most `M - 2 ^ k`. -/
theorem aligned_le_M_sub {k m : Nat} (hk : k ≤ W) (hm : m % 2 ^ k = 0)
    (hmM : m < M) : m ≤ M - 2 ^ k := by
  have hc : M = 2 ^ k * 2 ^ (W - k) := by
    rw [← pow_add, Nat.add_sub_cancel' hk]
    rfl
  rcases Nat.dvd_of_mod_eq_zero hm with ⟨c, hcm⟩
  have h1 : c < 2 ^ (W - k) := by
    by_contra h
    push_neg at h
    have := Nat.mul_le_mul_left (2 ^ k) h
    omega
  have h2 : c + 1 ≤ 2 ^ (W - k) := h1
  have h3 : 2 ^ k * (c + 1) ≤ 2 ^ k * 2 ^ (W - k) := Nat.mul_le_mul_left _ h2
  have h4 : 2 ^ k * (c + 1) = 2 ^ k * c + 2 ^ k := by ring
  omega

theorem if_lt_max (a b : Nat) : (if a < b then b else a) = max a b := by
  rcases Nat.lt_or_ge a b with h | h
  · rw [if_pos h, Nat.max_eq_right h.le]
  · rw [if_neg (Nat.not_lt.mpr h), Nat.max_eq_left h]

theorem one_lor_ite (c : Prop) [Decidable c] :
    (1 : Nat) ||| (if c then 1 else 0) = 1 := by
  by_cases h : c
  · rw [if_pos h]
    decide
  · rw [if_neg h]
    decide

/-- Evaluation of `array_size` when the product fits. -/
theorem array_size_fit {a s n : Nat} (hs : 0 < s) (hfit : s * n < M) :
    array_size a s n = s * n := by
  simp only [array_size]
  rw [Nat.mod_eq_of_lt hfit, Nat.mul_div_cancel_left n hs, if_pos rfl]

/-- Evaluation of `array_size` when the product wraps. -/
theorem array_size_ov {a s n : Nat} (hs : 0 < s) (hov : M ≤ s * n) :
    array_size a s n = cnot (a - 1) := by
  simp only [array_size]
  rw [if_neg (mul_wrap_div_ne hs hov)]

/-- Symbolic execution of `flex_size` when no step overflows. -/
theorem flex_size_no_ov {k mn off s n : Nat} (hk : k ≤ W) (hs : 0 < s)
    (hfit : s * n + off + 2 ^ k - 1 < M) :
    flex_size (2 ^ k) mn off s n =
      if align_ceil (2 ^ k) off < mn then
        max (align_floor (2 ^ k) (s * n + off + 2 ^ k - 1)) mn
      else
        align_floor (2 ^ k) (s * n + off + 2 ^ k - 1) := by
  have h1 : (1:Nat) ≤ 2 ^ k := Nat.one_le_two_pow
  have hsn : s * n < M := by omega
  have hextra : off + 2 ^ k - 1 < M := by omega
  have e0 : s * n % M = s * n := Nat.mod_eq_of_lt hsn
  have e1 : s * n / s = n := Nat.mul_div_cancel_left n hs
  have e2 : (off + 2 ^ k - 1) % M = off + 2 ^ k - 1 := Nat.mod_eq_of_lt hextra
  have e3 : (s * n + (off + 2 ^ k - 1)) % M = s * n + off + 2 ^ k - 1 := by
    rw [Nat.mod_eq_of_lt (by omega)]
    omega
  have e4 : ¬ (s * n + off + 2 ^ k - 1 < off + 2 ^ k - 1) := by omega
  have e5 : (if n ≠ n then (1:Nat) else 0) = 0 := by simp
  simp only [flex_size]
  rw [e0, e1, e5, e2, e3, if_neg e4, Nat.zero_or, Nat.sub_zero, Nat.mod_self,
    Nat.or_zero]
  by_cases hc : align_ceil (2 ^ k) off < mn
  · rw [if_pos hc, if_pos hc, if_lt_max]
  · rw [if_neg hc, if_neg hc]

/-- Symbolic execution of `flex_size` when the element product or the
subsequent addition overflows: the pre-clamp result is the aligned
all-ones sentinel. -/
theorem flex_size_ov {k mn off s n : Nat} (hk : k ≤ W) (hs : 0 < s)
    (hoff : off + 2 ^ k - 1 < M) (hov : M ≤ s * n + off + 2 ^ k - 1) :
    flex_size (2 ^ k) mn off s n =
      if align_ceil (2 ^ k) off < mn then max (M - 2 ^ k) mn else M - 2 ^ k := by
  have h1 : (1:Nat) ≤ 2 ^ k := Nat.one_le_two_pow
  have e2 : (off + 2 ^ k - 1) % M = off + 2 ^ k - 1 := Nat.mod_eq_of_lt hoff
  have e6 : (M - 1) % M = M - 1 := Nat.mod_eq_of_lt (by have := M_pos; omega)
  rcases Nat.lt_or_ge (s * n) M with hsn | hsn
  · -- The product fits but the addition of `off + 2 ^ k - 1` wraps.
    have e0 : s * n % M = s * n := Nat.mod_eq_of_lt hsn
    have e1 : s * n / s = n := Nat.mul_div_cancel_left n hs
    have e5 : (if n ≠ n then (1:Nat) else 0) = 0 := by simp
    have hwrap : M ≤ s * n + (off + 2 ^ k - 1) := by omega
    have e3 : (s * n + (off + 2 ^ k - 1)) % M = s * n + (off + 2 ^ k - 1) - M := by
      rw [Nat.mod_eq_sub_mod hwrap, Nat.mod_eq_of_lt (by omega)]
    have e4 : s * n + (off + 2 ^ k - 1) - M < off + 2 ^ k - 1 := by omega
    have e7 : (s * n + (off + 2 ^ k - 1) - M) ||| (M - 1) = M - 1 :=
      lor_all_ones (by omega)
    simp only [flex_size]
    rw [e0, e1, e5, e2, e3, if_pos e4, Nat.zero_or, e6, e7,
      align_floor_all_ones hk]
    by_cases hc : align_ceil (2 ^ k) off < mn
    · rw [if_pos hc, if_pos hc, if_lt_max]
    · rw [if_neg hc, if_neg hc]
  · -- The product itself wraps.
    have hdiv : s * n % M / s ≠ n := mul_wrap_div_ne hs hsn
    have e5 : (if s * n % M / s ≠ n then (1:Nat) else 0) = 1 := by
      rw [if_pos hdiv]
    have e7 : (s * n % M + (off + 2 ^ k - 1)) % M ||| (M - 1) = M - 1 :=
      lor_all_ones (Nat.mod_lt _ M_pos)
    simp only [flex_size]
    rw [e5, e2, one_lor_ite, e6, e7, align_floor_all_ones hk]
    by_cases hc : align_ceil (2 ^ k) off < mn
    · rw [if_pos hc, if_pos hc, if_lt_max]
    · rw [if_neg hc, if_neg hc]

/-- Every run of `flex_size` lands in one of two regimes: no step overflows
and the result is the rounded-up exact size with the `min` clamp, or some step
overflows and the pre-clamp result is the aligned sentinel `M - 2 ^ k`. -/
theorem flex_size_cases {k off s : Nat} (hk : k ≤ W) (hs : 0 < s)
    (hoff : off + 2 ^ k - 1 < M) (mn n : Nat) :
    (s * n + off + 2 ^ k - 1 < M
      ∧ flex_size (2 ^ k) mn off s n =
          (if align_ceil (2 ^ k) off < mn then
            max (align_floor (2 ^ k) (s * n + off + 2 ^ k - 1)) mn
          else align_floor (2 ^ k) (s * n + off + 2 ^ k - 1)))
    ∨ (M ≤ s * n + off + 2 ^ k - 1
      ∧ flex_size (2 ^ k) mn off s n =
          (if align_ceil (2 ^ k) off < mn then max (M - 2 ^ k) mn
          else M - 2 ^ k)) := by
  rcases Nat.lt_or_ge (s * n + off + 2 ^ k - 1) M with h | h
  · exact Or.inl ⟨h, flex_size_no_ov hk hs h⟩
  · exact Or.inr ⟨h, flex_size_ov hk hs hoff h⟩

/-- Unfolding: `align_ceil` is `align_floor` of `x + A - 1` whenever that sum
fits. -/
theorem align_ceil_eq_floor {k x : Nat} (hx : x + 2 ^ k - 1 < M) :
    align_ceil (2 ^ k) x = align_floor (2 ^ k) (x + 2 ^ k - 1) := by
  unfold align_ceil
  rw [Nat.mod_eq_of_lt hx]

/-! Claim theorems. -/

/-- C1: for every power-of-two alignment `A = 2 ^ k` and `size_t` operands
with `S > 0`, `array_size(A, S, N)` either equals the exact product `S·N`
(precisely when it fits in a `size_t`) or equals the saturating sentinel
`~(A−1)`, never any other value; in particular, on the 64-bit system,
`array_size(8, 16, SIZE_MAX) = 0xFFFFFFFFFFFFFFF8`. -/
theorem array_size_exact_or_sentinel (k s n : Nat) (hk : k < W) (hs : 0 < s)
    (hsM : s < M) (hnM : n < M) :
    ((array_size (2 ^ k) s n = s * n ∧ s * n < M)
      ∨ array_size (2 ^ k) s n = cnot (2 ^ k - 1))
    ∧ array_size 8 16 (M - 1) = 0xFFFFFFFFFFFFFFF8 := by
  refine ⟨?_, by decide⟩
  rcases Nat.lt_or_ge (s * n) M with h | h
  · exact Or.inl ⟨array_size_fit hs h, h⟩
  · exact Or.inr (array_size_ov hs h)

theorem array_size_exact_or_sentinel_w :
    ((array_size (2 ^ 3) 16 (M - 1) = 16 * (M - 1) ∧ 16 * (M - 1) < M)
      ∨ array_size (2 ^ 3) 16 (M - 1) = cnot (2 ^ 3 - 1))
    ∧ array_size 8 16 (M - 1) = 0xFFFFFFFFFFFFFFF8 :=
  array_size_exact_or_sentinel 3 16 (M - 1) (by decide) (by decide) (by decide)
    (by decide)

/-- C7: for a power-of-two alignment `A = 2 ^ k` and `x < 2^64`,
`align_floor(A, x)` is `x & ~(A−1)`, which is the greatest multiple of `A`
that is `≤ x` (it is a multiple, is `≤ x`, and dominates every multiple
`≤ x`); and whenever `x + A − 1` does not overflow, `align_ceil(A, x)` is
`align_floor(A, x + A − 1)`, the least multiple of `A` that is `≥ x`. -/
theorem align_floor_ceil_spec (k x : Nat) (hk : k < W) (hx : x < M) :
    align_floor (2 ^ k) x = x &&& cnot (2 ^ k - 1)
    ∧ align_floor (2 ^ k) x % 2 ^ k = 0
    ∧ align_floor (2 ^ k) x ≤ x
    ∧ (∀ m, m % 2 ^ k = 0 → m ≤ x → m ≤ align_floor (2 ^ k) x)
    ∧ (x + 2 ^ k - 1 < M →
        align_ceil (2 ^ k) x = align_floor (2 ^ k) (x + 2 ^ k - 1)
        ∧ align_ceil (2 ^ k) x % 2 ^ k = 0
        ∧ x ≤ align_ceil (2 ^ k) x
        ∧ ∀ m, m % 2 ^ k = 0 → x ≤ m → align_ceil (2 ^ k) x ≤ m) := by
  have hk' : k ≤ W := hk.le
  exact ⟨rfl, align_floor_dvd hk' hx, align_floor_le hk' hx,
    fun m hm hle => align_floor_greatest hk' hx hm hle,
    fun hxc => ⟨align_ceil_eq_floor hxc, align_ceil_dvd hk' hxc,
      le_align_ceil hk' hxc, fun m hm hle => align_ceil_least hk' hxc hm hle⟩⟩

theorem align_floor_ceil_spec_w :
    align_floor (2 ^ 3) 21 = 21 &&& cnot (2 ^ 3 - 1)
    ∧ align_floor (2 ^ 3) 21 % 2 ^ 3 = 0
    ∧ align_floor (2 ^ 3) 21 ≤ 21
    ∧ 16 ≤ align_floor (2 ^ 3) 21
    ∧ 21 ≤ align_ceil (2 ^ 3) 21 := by
  have h := align_floor_ceil_spec 3 21 (by decide) (by decide)
  exact ⟨h.1, h.2.1, h.2.2.1, h.2.2.2.1 16 (by decide) (by decide),
    (h.2.2.2.2 (by decide)).2.2.1⟩

/-- C9: the raw `align_ceil` helper does not saturate: for `A = 2 ^ k ≥ 2`
and `x` so large that `x + A − 1` wraps a `size_t`, the result is strictly
below `x`; for example `align_ceil(8, SIZE_MAX) = 0`. -/
theorem align_ceil_wraps (k x : Nat) (h1 : 1 ≤ k) (hk : k < W)
    (hx : M - 2 ^ k < x) (hxM : x < M) :
    align_ceil (2 ^ k) x < x ∧ align_ceil 8 (M - 1) = 0 := by
  refine ⟨?_, by decide⟩
  have hk' : k ≤ W := hk.le
  have h2 : 2 ^ k ≤ M := two_pow_le_M hk'
  have h2s : 2 ^ k < M := by
    unfold M
    exact Nat.pow_lt_pow_right (by norm_num) hk
  have h1k : (1:Nat) ≤ 2 ^ k := Nat.one_le_two_pow
  have hwrap : (x + 2 ^ k - 1) % M = x + 2 ^ k - 1 - M := by
    rw [Nat.mod_eq_sub_mod (by omega), Nat.mod_eq_of_lt (by omega)]
  unfold align_ceil
  rw [hwrap, align_floor_eq hk' (by omega)]
  have hlt : x + 2 ^ k - 1 - M < 2 ^ k := by omega
  rw [Nat.mod_eq_of_lt hlt]
  omega

theorem align_ceil_wraps_w : align_ceil (2 ^ 3) (M - 1) < M - 1
    ∧ align_ceil 8 (M - 1) = 0 :=
  align_ceil_wraps 3 (M - 1) (by decide) (by decide) (by decide) (by decide)

/-- C10: both `array_size` and `flex_size` evaluate the division `ret / size`
unconditionally, so `size ≠ 0` is a precondition of both: the embeddings that
track that undefined-behaviour point are undefined exactly when `size = 0`,
and for `size > 0` they are total and agree with the plain embeddings. -/
theorem div_by_size_precondition (a mn off s c : Nat) :
    (s = 0 → array_size_chk a s c = none ∧ flex_size_chk a mn off s c = none)
    ∧ (0 < s → array_size_chk a s c = some (array_size a s c)
        ∧ flex_size_chk a mn off s c = some (flex_size a mn off s c)) := by
  constructor
  · rintro rfl
    constructor <;> simp [array_size_chk, flex_size_chk, cdiv]
  · intro hs
    have hs' : s ≠ 0 := Nat.pos_iff_ne_zero.mp hs
    constructor <;>
      simp [array_size_chk, flex_size_chk, cdiv, hs', array_size, flex_size]

theorem div_by_size_precondition_w :
    array_size_chk 8 0 3 = none
    ∧ flex_size_chk 8 24 16 8 2 = some (flex_size 8 24 16 8 2) :=
  ⟨((div_by_size_precondition 8 0 0 0 3).1 rfl).1,
   ((div_by_size_precondition 8 24 16 8 2).2 (by decide)).2⟩

/-- C2 counterexample: at `A = 8, min = SIZE_MAX, off = 0, esz = 2, n = 2^63`
the product `esz·n` overflows a `size_t`, yet `flex_size` returns
`SIZE_MAX` — the clamp raises the saturated value above the aligned sentinel
`~(A−1) = 0xFF…F8` — so the claim fails as universally stated over `min`. -/
theorem flex_size_saturation_cex :
    M ≤ 2 * 2 ^ 63
    ∧ flex_size 8 (M - 1) 0 2 (2 ^ 63) = M - 1
    ∧ flex_size 8 (M - 1) 0 2 (2 ^ 63) ≠ cnot (8 - 1) := by decide

/-- C2 amended: for a power-of-two alignment `A = 2 ^ k`, `esz > 0`,
an offset for which `off + A − 1` itself fits in a `size_t`, and
`min ≤ ~(A−1)` (both hold for any genuine type layout, where `min` is a
multiple of `A` below `2^64` and `off ≤ min`), whenever the product `esz·n`
or the subsequent addition of `off + A − 1` overflows a `size_t`,
`flex_size` returns the largest `A`-aligned value `~(A−1)`, never a wrapped
smaller result. -/
theorem flex_size_saturates (k mn off s n : Nat) (hk : k < W) (hs : 0 < s)
    (hoff : off + 2 ^ k - 1 < M) (hmn : mn ≤ M - 2 ^ k)
    (hov : M ≤ s * n ∨ M ≤ s * n + off + 2 ^ k - 1) :
    flex_size (2 ^ k) mn off s n = cnot (2 ^ k - 1) := by
  have h1 : (1:Nat) ≤ 2 ^ k := Nat.one_le_two_pow
  have hov' : M ≤ s * n + off + 2 ^ k - 1 := by
    rcases hov with h | h <;> omega
  rw [flex_size_ov hk.le hs hoff hov', cnot_two_pow_sub_one hk.le]
  by_cases hc : align_ceil (2 ^ k) off < mn
  · rw [if_pos hc, Nat.max_eq_left hmn]
  · rw [if_neg hc]

theorem flex_size_saturates_w :
    flex_size (2 ^ 3) 24 16 2 (2 ^ 63) = cnot (2 ^ 3 - 1) :=
  flex_size_saturates 3 24 16 2 (2 ^ 63) (by decide) (by decide) (by decide)
    (by decide) (Or.inl (by decide))

/-- C3 counterexample: at `A = 8, min = 8, off = 4, esz = 1, n = 1` no step
overflows and the clamp condition `min > align_ceil(A, off)` is false, yet
`flex_size` returns 8 while the claimed `align_floor(A, esz·n + off)` is 0:
the code rounds `esz·n + off` up (it floors `esz·n + off + A − 1`), not
down. -/
theorem flex_size_floor_cex :
    1 * 1 + 4 + 8 - 1 < M
    ∧ ¬ (8:Nat) > align_ceil 8 4
    ∧ flex_size 8 8 4 1 1 = 8
    ∧ align_floor 8 (1 * 1 + 4) = 0
    ∧ flex_size 8 8 4 1 1 ≠ align_floor 8 (1 * 1 + 4) := by decide

/-- C3 amended: for every power-of-two `A = 2 ^ k`, `min`, `off`, `esz > 0`
and count `n` for which no step overflows, `flex_size(A, min, off, esz, n)`
equals `align_ceil(A, esz·n + off)` — the code floors `esz·n + off + A − 1`,
i.e. rounds the exact size up to the alignment — clamped up to `min` exactly
when `min > align_ceil(A, off)`. -/
theorem flex_size_exact_no_ov (k mn off s n : Nat) (hk : k < W) (hs : 0 < s)
    (hfit : s * n + off + 2 ^ k - 1 < M) :
    flex_size (2 ^ k) mn off s n =
      if align_ceil (2 ^ k) off < mn then
        max (align_ceil (2 ^ k) (s * n + off)) mn
      else
        align_ceil (2 ^ k) (s * n + off) := by
  rw [align_ceil_eq_floor hfit]
  exact flex_size_no_ov hk.le hs hfit

theorem flex_size_exact_no_ov_w :
    flex_size (2 ^ 3) 24 16 8 1 =
      if align_ceil (2 ^ 3) 16 < 24 then
        max (align_ceil (2 ^ 3) (8 * 1 + 16)) 24
      else
        align_ceil (2 ^ 3) (8 * 1 + 16) :=
  flex_size_exact_no_ov 3 24 16 8 1 (by decide) (by decide) (by decide)

/-- C5: with count 0 and no overflow in `off + A − 1`, `flex_size` returns at
least `min`, including when the declared base struct carries more tail
padding than the alignment requires (`min > align_ceil(A, off)`). -/
theorem flex_size_zero_ge_min (k mn off s : Nat) (hk : k < W) (hs : 0 < s)
    (hoff : off + 2 ^ k - 1 < M) :
    mn ≤ flex_size (2 ^ k) mn off s 0 := by
  have h1 : (1:Nat) ≤ 2 ^ k := Nat.one_le_two_pow
  have hfit : s * 0 + off + 2 ^ k - 1 < M := by
    have hz : s * 0 = 0 := Nat.mul_zero s
    omega
  rw [flex_size_no_ov hk.le hs hfit]
  by_cases hc : align_ceil (2 ^ k) off < mn
  · rw [if_pos hc]
    exact Nat.le_max_right _ _
  · rw [if_neg hc]
    push_neg at hc
    have harg : s * 0 + off + 2 ^ k - 1 = off + 2 ^ k - 1 := by
      have hz : s * 0 = 0 := Nat.mul_zero s
      omega
    rw [harg, ← align_ceil_eq_floor hoff]
    exact hc

theorem flex_size_zero_ge_min_w : (32:Nat) ≤ flex_size (2 ^ 3) 32 16 8 0 :=
  flex_size_zero_ge_min 3 32 16 8 (by decide) (by decide) (by decide)

/-- C8: when neither the element product nor the addition
`esz·n + off + A − 1` overflows, `flex_size` is at least `off + esz·n`: the
computed size always covers the struct header and all `n` trailing elements;
the alignment step rounds up, never down past the needed size. -/
theorem flex_size_ge_payload (k mn off s n : Nat) (hk : k < W) (hs : 0 < s)
    (hfit : s * n + off + 2 ^ k - 1 < M) :
    off + s * n ≤ flex_size (2 ^ k) mn off s n := by
  have h1 : (1:Nat) ≤ 2 ^ k := Nat.one_le_two_pow
  rw [flex_size_no_ov hk.le hs hfit]
  have hfl : off + s * n ≤ align_floor (2 ^ k) (s * n + off + 2 ^ k - 1) := by
    rw [align_floor_eq hk.le hfit]
    have h2 : (s * n + off + 2 ^ k - 1) % 2 ^ k < 2 ^ k :=
      Nat.mod_lt _ (Nat.pos_pow_of_pos _ (by norm_num))
    omega
  by_cases hc : align_ceil (2 ^ k) off < mn
  · rw [if_pos hc]
    exact le_trans hfl (Nat.le_max_left _ _)
  · rw [if_neg hc]
    exact hfl

theorem flex_size_ge_payload_w : 16 + 8 * 2 ≤ flex_size (2 ^ 3) 24 16 8 2 :=
  flex_size_ge_payload 3 24 16 8 2 (by decide) (by decide) (by decide)

/-- C4: for a genuine type layout — power-of-two alignment `A = 2 ^ k`, base
size `min` a multiple of `A` with `min ≥ align_ceil(A, off)`, flexible-member
offset `off ≤ min`, element size `esz > 0` — `flex_size` (and hence
`sizeof_flex`) is monotonic non-decreasing in `count`, its result is a
multiple of `A`, and its result is at least `min`, for every `count`. -/
theorem flex_size_layout_props (k mn off s : Nat) (hk : k < W)
    (hmod : mn % 2 ^ k = 0) (hceil : align_ceil (2 ^ k) off ≤ mn)
    (hoffmn : off ≤ mn) (hmnM : mn < M) (hs : 0 < s) :
    (∀ n n', n ≤ n' →
      flex_size (2 ^ k) mn off s n ≤ flex_size (2 ^ k) mn off s n')
    ∧ (∀ n, flex_size (2 ^ k) mn off s n % 2 ^ k = 0
        ∧ mn ≤ flex_size (2 ^ k) mn off s n) := by
  have hk' : k ≤ W := hk.le
  have h1 : (1:Nat) ≤ 2 ^ k := Nat.one_le_two_pow
  have hmnle : mn ≤ M - 2 ^ k := aligned_le_M_sub hk' hmod hmnM
  have h2 : 2 ^ k ≤ M := two_pow_le_M hk'
  have hoffM : off + 2 ^ k - 1 < M := by omega
  have hsub : (M - 2 ^ k) % 2 ^ k = 0 := M_sub_pow_mod hk'
  have hge : ∀ n, mn ≤ flex_size (2 ^ k) mn off s n := by
    intro n
    rcases flex_size_cases hk' hs hoffM mn n with ⟨harg, heq⟩ | ⟨_, heq⟩
    · rw [heq]
      by_cases hc : align_ceil (2 ^ k) off < mn
      · rw [if_pos hc]
        exact Nat.le_max_right _ _
      · rw [if_neg hc]
        push_neg at hc
        calc mn ≤ align_ceil (2 ^ k) off := hc
          _ = align_floor (2 ^ k) (off + 2 ^ k - 1) := align_ceil_eq_floor hoffM
          _ ≤ align_floor (2 ^ k) (s * n + off + 2 ^ k - 1) :=
              align_floor_mono hk' (by omega) harg
    · rw [heq]
      by_cases hc : align_ceil (2 ^ k) off < mn
      · rw [if_pos hc]
        exact Nat.le_max_right _ _
      · rw [if_neg hc]
        exact hmnle
  have halign : ∀ n, flex_size (2 ^ k) mn off s n % 2 ^ k = 0 := by
    intro n
    rcases flex_size_cases hk' hs hoffM mn n with ⟨harg, heq⟩ | ⟨_, heq⟩
    · rw [heq]
      by_cases hc : align_ceil (2 ^ k) off < mn
      · rw [if_pos hc]
        rcases max_choice (align_floor (2 ^ k) (s * n + off + 2 ^ k - 1)) mn
          with h | h <;> rw [h]
        · exact align_floor_dvd hk' harg
        · exact hmod
      · rw [if_neg hc]
        exact align_floor_dvd hk' harg
    · rw [heq]
      by_cases hc : align_ceil (2 ^ k) off < mn
      · rw [if_pos hc]
        rcases max_choice (M - 2 ^ k) mn with h | h <;> rw [h]
        · exact hsub
        · exact hmod
      · rw [if_neg hc]
        exact hsub
  refine ⟨?_, fun n => ⟨halign n, hge n⟩⟩
  intro n n' hnn
  have hmul : s * n ≤ s * n' := Nat.mul_le_mul_left s hnn
  rcases flex_size_cases hk' hs hoffM mn n' with ⟨harg', heq'⟩ | ⟨_, heq'⟩
  · -- `n'` does not overflow, so neither does `n ≤ n'`.
    have harg : s * n + off + 2 ^ k - 1 < M := by omega
    rcases flex_size_cases hk' hs hoffM mn n with ⟨_, heq⟩ | ⟨hbad, _⟩
    · rw [heq, heq']
      have hfl : align_floor (2 ^ k) (s * n + off + 2 ^ k - 1)
          ≤ align_floor (2 ^ k) (s * n' + off + 2 ^ k - 1) :=
        align_floor_mono hk' (by omega) harg'
      by_cases hc : align_ceil (2 ^ k) off < mn
      · rw [if_pos hc, if_pos hc]
        exact max_le_max hfl (le_refl mn)
      · rw [if_neg hc, if_neg hc]
        exact hfl
    · omega
  · rw [heq']
    rcases flex_size_cases hk' hs hoffM mn n with ⟨harg, heq⟩ | ⟨_, heq⟩
    · rw [heq]
      have hfl : align_floor (2 ^ k) (s * n + off + 2 ^ k - 1) ≤ M - 2 ^ k :=
        aligned_le_M_sub hk' (align_floor_dvd hk' harg)
          (align_floor_lt_M hk' harg)
      by_cases hc : align_ceil (2 ^ k) off < mn
      · rw [if_pos hc, if_pos hc]
        exact max_le_max hfl (le_refl mn)
      · rw [if_neg hc, if_neg hc]
        exact hfl
    · rw [heq]

theorem flex_size_layout_props_w :
    flex_size (2 ^ 3) 24 16 8 1 ≤ flex_size (2 ^ 3) 24 16 8 3
    ∧ flex_size (2 ^ 3) 24 16 8 1 % 2 ^ 3 = 0
    ∧ 24 ≤ flex_size (2 ^ 3) 24 16 8 1 := by
  have h := flex_size_layout_props 3 24 16 8 (by decide) (by decide)
    (by decide) (by decide) (by decide) (by decide)
  exact ⟨h.1 1 3 (by decide), (h.2 1).1, (h.2 1).2⟩

end Alloc

namespace Ioq

/-- C6: for every queue created by a successful `ioq_create(depth, nthreads)`
and every state reachable from it by any sequence of submissions, worker
dispatches, completions, pops, frees and cancels, the number of free entries
plus submitted entries plus in-flight entries plus completed-but-not-yet-freed
entries equals `depth`, and `ioq_capacity` never exceeds `depth`. -/
theorem ioq_entry_conservation (depth nthreads : Nat) (st : State)
    (h : Reachable (ioq_create depth nthreads) st) :
    st.free + st.submitted + st.inflight + st.completed = depth
    ∧ ioq_capacity st ≤ depth := by
  have hsum : st.free + st.submitted + st.inflight + st.completed = depth := by
    induction h with
    | refl => rfl
    | tail hR hstep ih =>
        cases hstep <;> dsimp only at ih ⊢ <;> omega
  refine ⟨hsum, ?_⟩
  unfold ioq_capacity
  omega

theorem ioq_entry_conservation_w :
    (State.free ⟨3, 1, 0, 0⟩ + State.submitted ⟨3, 1, 0, 0⟩
      + State.inflight ⟨3, 1, 0, 0⟩ + State.completed ⟨3, 1, 0, 0⟩ = 4)
    ∧ ioq_capacity ⟨3, 1, 0, 0⟩ ≤ 4 :=
  ioq_entry_conservation 4 2 ⟨3, 1, 0, 0⟩
    (Relation.ReflTransGen.single (Step.submit 3 0 0 0))

end Ioq
